import Mathlib

/-!
Shallow embedding of hexterm.py (tedkotz/hexterm), the pipeline engine of a
hexadecimal serial terminal, together with theorems settling the frozen
claims about its specification.

Strings from the Python source are modelled as List Char; byte strings as
List Nat with values below 256; wall-clock times as rationals.  Python
exceptions are modelled with Except; a caught-and-printed exception becomes
an Option diagnostic in the result.
-/

namespace Hexterm

/-- Python whitespace test used by str.lstrip and str.split for the
characters that can occur on a command line (space, tab, newline, vertical
tab, form feed, carriage return). -/
def isPySpace (c : Char) : Bool :=
  c = ' ' ∨ c = '\t' ∨ c = '\n' ∨ c = '\x0b' ∨ c = '\x0c' ∨ c = '\r'

/-- Python str.upper restricted to one character, on the ASCII range
(the source uses it on single ASCII characters only). -/
def pyToUpper (c : Char) : Char :=
  if 97 ≤ c.toNat ∧ c.toNat ≤ 122 then Char.ofNat (c.toNat - 32) else c

/-- Python str.upper over a whole string, as a character map (correct for
the ASCII arguments the source applies it to). -/
def strUpper (s : List Char) : List Char := s.map pyToUpper

/-- Python str.isprintable for one character, valid on the characters the
program can produce (ASCII plus the image of the CP437 decoding table):
the non-printables there are exactly the C0 controls, DEL, and U+00A0. -/
def pyIsPrintable (c : Char) : Bool :=
  ¬ (c.toNat < 32 ∨ c.toNat = 127 ∨ c.toNat = 160)

/-- Python str.ljust with the default space fill character. -/
def ljust (w : Nat) (s : List Char) : List Char :=
  s ++ List.replicate (w - s.length) ' '

/-- Value of one hexadecimal digit, exactly the digits bytes.fromhex
accepts. -/
def hexDigitVal (c : Char) : Option Nat :=
  if 48 ≤ c.toNat ∧ c.toNat ≤ 57 then some (c.toNat - 48)
  else if 97 ≤ c.toNat ∧ c.toNat ≤ 102 then some (c.toNat - 87)
  else if 65 ≤ c.toNat ∧ c.toNat ≤ 70 then some (c.toNat - 55)
  else none

/-- Lowercase hexadecimal digit for a nibble, as produced by bytes.hex. -/
def hexDigitLower (n : Nat) : Char :=
  Char.ofNat (if n < 10 then 48 + n else 87 + n)

/-- Two lowercase hexadecimal digits of one byte, as produced by
bytes.hex. -/
def hexPairLower (b : Nat) : List Char :=
  [hexDigitLower (b / 16), hexDigitLower (b % 16)]

/-- Uppercase hexadecimal digit as it appears in format8bytes output
(bytes.hex output passed through str.upper). -/
def upHexDigit (n : Nat) : Char := pyToUpper (hexDigitLower n)

/-- Python bytes.hex with a single-space separator: lowercase pairs joined
by one space (empty string for empty input). -/
def bytesHexSep : List Nat → List Char
  | [] => []
  | [b] => hexPairLower b
  | b :: rest => hexPairLower b ++ ' ' :: bytesHexSep rest

/-- Python bytes.fromhex on a whitespace-free string: two hexadecimal
digits per byte, failure (ValueError) as none.  The source only calls it
on tokens already split at whitespace and padded to even length. -/
def fromhexPairs : List Char → Option (List Nat)
  | [] => some []
  | [_] => none
  | a :: b :: rest =>
    match hexDigitVal a, hexDigitVal b, fromhexPairs rest with
    | some x, some y, some bs => some ((16 * x + y) :: bs)
    | _, _, _ => none

/-- Diagnostics the command parser can print: the two exception classes
caught in convert_string_to_bytes. -/
inductive PErr where
  | unicodeEncodeError
  | valueError
deriving DecidableEq, Repr

/-- Python str.encode for a whole string under a per-character byte
encoding: fails (UnicodeEncodeError, modelled as none) as soon as one
character is not encodable. -/
def encodeChars (enc : Char → Option (List Nat)) : List Char → Option (List Nat)
  | [] => some []
  | c :: r =>
    match enc c, encodeChars enc r with
    | some b, some bs => some (b ++ bs)
    | _, _ => none

/-- The helper _extract_bytes nested in convert_string_to_bytes: strip
leading whitespace; an empty remainder yields no bytes; a leading single or
double quote takes the text up to the matching quote (or the line end when
there is none, str.split with maxsplit 2 padded with an empty string),
encodes it, and recurses after the closing quote; anything else is taken as
a whitespace-delimited hex token, zero-padded in front when its length is
odd, converted with bytes.fromhex, recursing on the rest of the line.
Exceptions propagate out as the error case of Except. -/
def extractBytes (enc : Char → Option (List Nat)) (txt : List Char) :
    Except PErr (List Nat) :=
  match ht : txt.dropWhile isPySpace with
  | [] => .ok []
  | c :: r =>
    if c = '\'' ∨ c = '"' then
      match encodeChars enc (r.takeWhile (fun x => x ≠ c)) with
      | none => .error .unicodeEncodeError
      | some bs =>
        match extractBytes enc ((r.dropWhile (fun x => x ≠ c)).drop 1) with
        | .error e => .error e
        | .ok rest => .ok (bs ++ rest)
    else
      let tok := (c :: r).takeWhile (fun x => !isPySpace x)
      match fromhexPairs (if tok.length % 2 = 1 then '0' :: tok else tok) with
      | none => .error .valueError
      | some bs =>
        match extractBytes enc
            (((c :: r).dropWhile (fun x => !isPySpace x)).dropWhile isPySpace) with
        | .error e => .error e
        | .ok rest => .ok (bs ++ rest)
termination_by txt.length
decreasing_by
  · have hlen : ∀ (p : Char → Bool) (l : List Char),
        (l.dropWhile p).length ≤ l.length := by
      intro p l
      induction l with
      | nil => simp
      | cons a l ih =>
        by_cases hp : p a
        · rw [List.dropWhile_cons_of_pos hp]
          exact Nat.le_succ_of_le ih
        · rw [List.dropWhile_cons_of_neg (by simpa using hp)]
    have h1 := hlen isPySpace txt
    rw [ht] at h1
    simp only [List.length_cons] at h1
    have h2 := hlen (fun x => decide (x ≠ c)) r
    simp only [List.length_drop]
    omega
  · have hlen : ∀ (p : Char → Bool) (l : List Char),
        (l.dropWhile p).length ≤ l.length := by
      intro p l
      induction l with
      | nil => simp
      | cons a l ih =>
        by_cases hp : p a
        · rw [List.dropWhile_cons_of_pos hp]
          exact Nat.le_succ_of_le ih
        · rw [List.dropWhile_cons_of_neg (by simpa using hp)]
    have hhead : ∀ (l : List Char) (c0 : Char) (r0 : List Char),
        l.dropWhile isPySpace = c0 :: r0 → isPySpace c0 = false := by
      intro l
      induction l with
      | nil => intro c0 r0 h; simp at h
      | cons a l ih =>
        intro c0 r0 h
        by_cases hp : isPySpace a
        · rw [List.dropWhile_cons_of_pos hp] at h
          exact ih c0 r0 h
        · rw [List.dropWhile_cons_of_neg (by simpa using hp)] at h
          cases h
          simpa using hp
    have h1 := hlen isPySpace txt
    rw [ht] at h1
    simp only [List.length_cons] at h1
    have hc : isPySpace c = false := hhead txt c r ht
    have h2 : ((c :: r).dropWhile (fun x => !isPySpace x)) =
        r.dropWhile (fun x => !isPySpace x) := by
      apply List.dropWhile_cons_of_pos
      simp [hc]
    rw [h2]
    have h3 := Nat.le_trans
      (hlen isPySpace (r.dropWhile (fun x => !isPySpace x)))
      (hlen (fun x => !isPySpace x) r)
    omega

/-- convert_string_to_bytes: run _extract_bytes, catching
UnicodeEncodeError and ValueError by printing a diagnostic (the Option
component) and returning the empty byte string. -/
def convert_string_to_bytes (enc : Char → Option (List Nat)) (txt : List Char) :
    List Nat × Option PErr :=
  match extractBytes enc txt with
  | .ok bs => (bs, none)
  | .error e => ([], some e)

/-! The CP437 codec (the default -e encoding).  The codec itself lives in
the Python standard library, outside the repository; the table below is the
standard IBM code page 437 decoding table that library implements.  Bytes
below 128 decode to the same code point; the high half follows the table. -/

/-- Code points of the CP437 characters for bytes 128 to 255. -/
def cp437Hi : List Nat :=
  [199, 252, 233, 226, 228, 224, 229, 231, 234, 235, 232, 239, 238, 236, 196, 197,
   201, 230, 198, 244, 246, 242, 251, 249, 255, 214, 220, 162, 163, 165, 8359, 402,
   225, 237, 243, 250, 241, 209, 170, 186, 191, 8976, 172, 189, 188, 161, 171, 187,
   9617, 9618, 9619, 9474, 9508, 9569, 9570, 9558, 9557, 9571, 9553, 9559, 9565, 9564, 9563, 9488,
   9492, 9524, 9516, 9500, 9472, 9532, 9566, 9567, 9562, 9556, 9577, 9574, 9568, 9552, 9580, 9575,
   9576, 9572, 9573, 9561, 9560, 9554, 9555, 9579, 9578, 9496, 9484, 9608, 9604, 9612, 9616, 9600,
   945, 223, 915, 960, 931, 963, 181, 964, 934, 920, 937, 948, 8734, 966, 949, 8745,
   8801, 177, 8805, 8804, 8992, 8993, 247, 8776, 176, 8729, 183, 8730, 8319, 178, 9632, 160]

/-- Decoding one byte under CP437 (total, so the errors-replace mode of
bytes.decode never fires for this codec). -/
def decodeCp437 (b : Nat) : Char :=
  if b < 128 then Char.ofNat b else Char.ofNat (cp437Hi.getD (b - 128) 0)

/-- Encoding one character under CP437: the byte that decodes to it, when
one exists (str.encode raises UnicodeEncodeError otherwise). -/
def cp437Enc (c : Char) : Option (List Nat) :=
  ((List.range 256).find? (fun b => decodeCp437 b = c)).map (fun b => [b])

/-! Output formatting functions. -/

/-- make_printable: replace every non printable character with the
substitute (the source default, a period, is the only substitute used). -/
def make_printable (txt : List Char) (subst : Char) : List Char :=
  txt.map (fun c => if pyIsPrintable c then c else subst)

/-- format8bytes: bytes to uppercase space-separated hex pairs, left
justified to 24 columns. -/
def format8bytes (arr : List Nat) : List Char :=
  ljust 24 (strUpper (bytesHexSep arr))

/-- convert_16bytes_to_string: two 8-byte halves of uppercase hex, a
space between them, then a space, a bar, the 16-column printable sidebar
decoded per the (single-byte) encoding, and a closing bar. -/
def convert_16bytes_to_string (dec : Nat → Char) (mybytes : List Nat) : List Char :=
  format8bytes (mybytes.take 8) ++ ' ' :: format8bytes ((mybytes.drop 8).take 8)
    ++ ' ' :: '|' :: ljust 16 (make_printable (mybytes.map dec) '.') ++ ['|']

/-! The aggregator: serial_output_loop.  One loop iteration either receives
a DataRead entry from the queue or times out; it then may emit one hexdump
line.  Wall-clock times are rationals; the float timestamp formatting of
the prefix (a 012.6f field in braces) is not embeddable and is carried as
an opaque text function in the configuration. -/

/-- Configuration visible to serial_output_loop: the aggregation window
msg_timeout = (16 * 12) / baud, the direction tag pfx, the resolved
print_timestamp flag, the timestamp prefix renderer, and the byte
decoder of the configured encoding. -/
structure AggConfig where
  msgTimeout : ℚ
  pfx : List Char
  printTs : Bool
  tsText : ℚ → List Char
  dec : Nat → Char

/-- Mutable state of serial_output_loop: the pending buffer (data) and the
line-start timestamp (start_timestamp). -/
structure AggState where
  data : List Nat
  start : ℚ
deriving DecidableEq

/-- One interaction with the input queue: either a DataRead entry obtained
from get, or a queue.Empty timeout with the current wall clock. -/
inductive QEvent where
  | entry (t : ℚ) (bytes : List Nat)
  | timeoutAt (t : ℚ)
deriving DecidableEq

/-- The aggregation window (16 * 12) / baud from serial_output_loop. -/
def msg_timeout (baud : ℚ) : ℚ := (16 * 12) / baud

/-- Resolution of print_timestamp at the top of serial_output_loop: the
tri-state timestamp flag, defaulting to the truthiness of the mitm
argument. -/
def resolve_print_timestamp (timestamp : Option Bool) (mitm : Option (List Char)) :
    Bool :=
  match timestamp with
  | none =>
    match mitm with
    | none => false
    | some s => !s.isEmpty
  | some b => b

/-- Text of one emitted line: the direction tag, a colon and a space, the
hexdump body and a newline; prefixed with the rendered timestamp of the
line-start time when print_timestamp is set. -/
def serial_output_line (cfg : AggConfig) (startTs : ℚ) (body : List Char) :
    List Char :=
  let txt := cfg.pfx ++ ':' :: ' ' :: (body ++ ['\n'])
  if cfg.printTs then cfg.tsText startTs ++ txt else txt

/-- Receive phase of one serial_output_loop iteration: a queue entry
updates the clock and, when its chunk is non-empty, appends it to the
buffer, resetting start_timestamp when the buffer was empty; a timeout
just updates the clock. -/
def aggReceive (s : AggState) : QEvent → ℚ × AggState
  | .entry t bs =>
    (t,
      if !bs.isEmpty then
        { data := s.data ++ bs,
          start := if s.data.length < 1 then t else s.start }
      else s)
  | .timeoutAt t => (t, s)

/-- Emit phase of one serial_output_loop iteration: when the buffer holds
16 bytes, or is non-empty and older than msg_timeout, format its first 16
bytes as one line, drop them, and reset start_timestamp to the clock. -/
def aggEmit (cfg : AggConfig) (curr : ℚ) (s : AggState) :
    AggState × Option (List Char) :=
  if 16 ≤ s.data.length ∨ (0 < s.data.length ∧ curr - s.start > cfg.msgTimeout) then
    (⟨s.data.drop 16, curr⟩,
      some (serial_output_line cfg s.start
        (convert_16bytes_to_string cfg.dec (s.data.take 16))))
  else (s, none)

/-- One full iteration of the serial_output_loop body. -/
def aggStep (cfg : AggConfig) (s : AggState) (ev : QEvent) :
    AggState × Option (List Char) :=
  let res := aggReceive s ev
  aggEmit cfg res.1 res.2

/-- Emitted lines of a run of serial_output_loop over a finite sequence of
queue interactions. -/
def aggRun (cfg : AggConfig) : AggState → List QEvent → List (List Char)
  | _, [] => []
  | s, ev :: rest =>
    let res := aggStep cfg s ev
    (match res.2 with
     | none => []
     | some line => [line]) ++ aggRun cfg res.1 rest

/-- Loop guard of serial_output_loop.  The source loop is a bare
while True whose body contains no break and no return: continuation
depends neither on the shutdown latch nor on the loop state. -/
def serial_output_loop_continues (_shutdownSet : Bool) (_s : AggState) : Bool :=
  true

/-! The port reader: serial_input_loop.  Its observable actions per read
chunk are the peer write (forwarding mode only) and the queue publish, in
the order the statements execute. -/

/-- Observable actions of serial_input_loop. -/
inductive SerialEvent where
  | peerWrite (bytes : List Nat)
  | publish (t : ℚ) (bytes : List Nat)
deriving DecidableEq

/-- Actions of one serial_input_loop iteration on a read result: nothing
for an empty (timed-out) read; otherwise, in forwarding mode, the peer
write followed by the queue publish; otherwise the publish alone. -/
def serial_input_cycle (forwarding : Bool) (t : ℚ) (newBytes : List Nat) :
    List SerialEvent :=
  if forwarding then
    if !newBytes.isEmpty then
      [.peerWrite newBytes, .publish t newBytes]
    else []
  else
    if !newBytes.isEmpty then
      [.publish t newBytes]
    else []

/-- Actions of a serial_input_loop run over a finite sequence of reads,
each tagged with its wall-clock time. -/
def serial_input_events (forwarding : Bool) : List (ℚ × List Nat) → List SerialEvent
  | [] => []
  | (t, bs) :: rest =>
    serial_input_cycle forwarding t bs ++ serial_input_events forwarding rest

/-- Startup exceptions of the forwarding decision. -/
inductive StartupErr where
  | runtimeError
deriving DecidableEq

/-- HexTerm._forward_to_mitm: without a mitm port, a truthy forward flag
raises RuntimeError, otherwise forwarding is off; with a mitm port,
forwarding is on unless the flag is explicitly False. -/
def forward_to_mitm (mitm : Option (List Char)) (forward : Option Bool) :
    Except StartupErr Bool :=
  match mitm with
  | none =>
    if forward = some true then .error .runtimeError else .ok false
  | some _ =>
    if forward = none ∨ forward = some true then .ok true else .ok false

/-! The local dispatcher: the verb routing of local_input_loop. -/

/-- Action the dispatcher takes on one input line. -/
inductive LocalAction where
  | quit
  | help
  | wait (line : List Char)
  | dteSend (payload : List Char)
  | dceSend (payload : List Char)
deriving DecidableEq

/-- Verb routing of local_input_loop: an empty line (EOF) or a line whose
first character uppercases to Q quits; H or ? prints help; W waits; T
sends the rest of the line to the DTE; anything else sends the whole line
to the DCE.  The tests inspect line[0], the raw first character. -/
def local_dispatch (line : List Char) : LocalAction :=
  match line with
  | [] => .quit
  | c :: rest =>
    if pyToUpper c = 'Q' then .quit
    else if pyToUpper c = 'H' ∨ pyToUpper c = '?' then .help
    else if pyToUpper c = 'W' then .wait (c :: rest)
    else if pyToUpper c = 'T' then .dteSend rest
    else .dceSend (c :: rest)

/-! Startup argument checking. -/

/-- The slice of the argparse namespace that verify_args_skip_start and
the forwarding decision read.  baud is either the parsed integer or the
raw help-request string (check_baud_type). -/
structure Args where
  forward : Option Bool
  mitm : Option (List Char)
  baud : Sum Nat (List Char)
  framing : List Char
  encoding : List Char
  flow_control : List Char

/-- Python truthiness of an optional bool (None is falsy). -/
def optBoolTruthy : Option Bool → Bool
  | none => false
  | some b => b

/-- Python truthiness of an optional string (None and the empty string are
falsy). -/
def optStrTruthy : Option (List Char) → Bool
  | none => false
  | some s => !s.isEmpty

/-- The help-request spellings accepted by verify_args_skip_start. -/
def helpArgs : List (List Char) := [['H', 'E', 'L', 'P'], ['?'], ['H']]

/-- verify_args_skip_start: returns true (skip starting the program) when
forward is truthy without a truthy mitm port, or when any of baud,
framing, encoding or flow_control spells a help request. -/
def verify_args_skip_start (a : Args) : Bool :=
  if optBoolTruthy a.forward && !optStrTruthy a.mitm then true
  else if
      (match a.baud with
       | .inl _ => false
       | .inr s => helpArgs.contains (strUpper s)) then true
  else if helpArgs.contains (strUpper a.framing) then true
  else if helpArgs.contains (strUpper a.encoding) then true
  else if helpArgs.contains (strUpper a.flow_control) then true
  else false

/-- The argparse result of the command line PORT --nf: the no-forwarding
flag stores False into forward, every other option keeps its default. -/
def nfArgs : Args :=
  { forward := some false
    mitm := none
    baud := .inl 9600
    framing := ['8', 'N', '1']
    encoding := ['c', 'p', '4', '3', '7']
    flow_control := ['N', 'o', 'n', 'e'] }

/-! Concrete configuration of scenario E1: -b 9600 -e cp437, no MITM, no
timestamp flag. -/

/-- Aggregator configuration in scenario E1: baud 9600, empty direction
tag (single-port mode), print_timestamp resolved from unset flags and no
MITM port. -/
def cfgE1 : AggConfig :=
  { msgTimeout := msg_timeout 9600
    pfx := []
    printTs := resolve_print_timestamp none none
    tsText := fun _ => []
    dec := decodeCp437 }

/-- Queue interactions of scenario E1: one 3-byte chunk delivered at time
0, then a queue timeout observed at time 2. -/
def eventsE1 : List QEvent :=
  [.entry 0 [0x48, 0x69, 0x0A], .timeoutAt 2]

/-! Helper lemmas. -/

theorem takeWhile_all {α : Type} (p : α → Bool) :
    ∀ (l : List α), (∀ x ∈ l, p x = true) → l.takeWhile p = l
  | [], _ => rfl
  | a :: l, h => by
    rw [List.takeWhile_cons_of_pos (h a (by simp)),
      takeWhile_all p l (fun x hx => h x (by simp [hx]))]

theorem dropWhile_all {α : Type} (p : α → Bool) :
    ∀ (l : List α), (∀ x ∈ l, p x = true) → l.dropWhile p = []
  | [], _ => rfl
  | a :: l, h => by
    rw [List.dropWhile_cons_of_pos (h a (by simp))]
    exact dropWhile_all p l (fun x hx => h x (by simp [hx]))

/-- Evaluation of extractBytes on a blank (all whitespace) line. -/
theorem extractBytes_blank (enc : Char → Option (List Nat)) {txt : List Char}
    (h : txt.dropWhile isPySpace = []) : extractBytes enc txt = .ok [] := by
  rw [extractBytes.eq_def]
  split
  · rfl
  · rename_i c r heq
    rw [h] at heq
    simp at heq

/-- Evaluation of extractBytes when the stripped line starts with a
quote. -/
theorem extractBytes_quote (enc : Char → Option (List Nat)) {txt : List Char}
    {c : Char} {r : List Char} (h : txt.dropWhile isPySpace = c :: r)
    (hq : c = '\'' ∨ c = '"') :
    extractBytes enc txt =
      match encodeChars enc (r.takeWhile (fun x => x ≠ c)) with
      | none => .error .unicodeEncodeError
      | some bs =>
        match extractBytes enc ((r.dropWhile (fun x => x ≠ c)).drop 1) with
        | .error e => .error e
        | .ok rest => .ok (bs ++ rest) := by
  rw [extractBytes.eq_def]
  split
  · rename_i heq
    rw [h] at heq
    simp at heq
  · rename_i c' r' heq
    rw [h] at heq
    injection heq with h1 h2
    subst h1
    subst h2
    rw [if_pos hq]

/-- Evaluation of extractBytes when the stripped line starts with a hex
token. -/
theorem extractBytes_hex (enc : Char → Option (List Nat)) {txt : List Char}
    {c : Char} {r : List Char} (h : txt.dropWhile isPySpace = c :: r)
    (hq : ¬ (c = '\'' ∨ c = '"')) :
    extractBytes enc txt =
      (let tok := (c :: r).takeWhile (fun x => !isPySpace x)
      match fromhexPairs (if tok.length % 2 = 1 then '0' :: tok else tok) with
      | none => .error .valueError
      | some bs =>
        match extractBytes enc
            (((c :: r).dropWhile (fun x => !isPySpace x)).dropWhile isPySpace) with
        | .error e => .error e
        | .ok rest => .ok (bs ++ rest)) := by
  rw [extractBytes.eq_def]
  split
  · rename_i heq
    rw [h] at heq
    simp at heq
  · rename_i c' r' heq
    rw [h] at heq
    injection heq with h1 h2
    subst h1
    subst h2
    rw [if_neg hq]

/-- fromhexPairs succeeds on even-length all-hex strings, producing half
as many bytes. -/
theorem fromhex_total :
    ∀ (l : List Char), (∀ c ∈ l, (hexDigitVal c).isSome) → l.length % 2 = 0 →
      ∃ bs, fromhexPairs l = some bs ∧ bs.length = l.length / 2
  | [], _, _ => ⟨[], rfl, rfl⟩
  | [_], _, hlen => by simp at hlen
  | a :: b :: rest, h, hlen => by
    obtain ⟨x, hx⟩ := Option.isSome_iff_exists.mp (h a (by simp))
    obtain ⟨y, hy⟩ := Option.isSome_iff_exists.mp (h b (by simp))
    obtain ⟨bs, hbs, hl⟩ := fromhex_total rest
      (fun c hc => h c (by simp [hc]))
      (by simp only [List.length_cons] at hlen ⊢; omega)
    refine ⟨(16 * x + y) :: bs, ?_, ?_⟩
    · simp [fromhexPairs, hx, hy, hbs]
    · simp only [List.length_cons, hl]
      omega

/-- A character accepted by hexDigitVal lies in one of the three digit
ranges. -/
theorem hexDigitVal_isSome_toNat {c : Char} (hc : (hexDigitVal c).isSome) :
    (48 ≤ c.toNat ∧ c.toNat ≤ 57) ∨ (97 ≤ c.toNat ∧ c.toNat ≤ 102) ∨
      (65 ≤ c.toNat ∧ c.toNat ≤ 70) := by
  unfold hexDigitVal at hc
  split_ifs at hc with h1 h2 h3
  · exact Or.inl h1
  · exact Or.inr (Or.inl h2)
  · exact Or.inr (Or.inr h3)
  · simp at hc

/-- Hexadecimal digit characters are not whitespace. -/
theorem hexChar_not_space {c : Char} (hc : (hexDigitVal c).isSome) :
    isPySpace c = false := by
  have h := hexDigitVal_isSome_toNat hc
  simp only [isPySpace, decide_eq_false_iff_not]
  rintro (rfl | rfl | rfl | rfl | rfl | rfl) <;> revert h <;> decide

/-- Hexadecimal digit characters are not quotes. -/
theorem hexChar_not_quote {c : Char} (hc : (hexDigitVal c).isSome) :
    ¬ (c = '\'' ∨ c = '"') := by
  have h := hexDigitVal_isSome_toNat hc
  rintro (rfl | rfl) <;> revert h <;> decide

/-- The uppercase hex digits of format8bytes output are non-space,
non-quote, and parse back to their nibble value. -/
theorem upHexDigit_facts :
    ∀ n, n < 16 →
      isPySpace (upHexDigit n) = false ∧
      ¬ (upHexDigit n = '\'' ∨ upHexDigit n = '"') ∧
      hexDigitVal (upHexDigit n) = some n := by
  decide

theorem dropWhile_space_replicate (p : Nat) :
    (List.replicate p ' ').dropWhile isPySpace = [] := by
  induction p with
  | zero => rfl
  | succ n ih =>
    rw [List.replicate_succ, List.dropWhile_cons_of_pos (by decide)]
    exact ih

theorem takeWhile_nonspace_replicate (p : Nat) :
    (List.replicate p ' ').takeWhile (fun x => !isPySpace x) = [] := by
  cases p with
  | zero => rfl
  | succ n =>
    rw [List.replicate_succ, List.takeWhile_cons_of_neg (by decide)]

theorem dropWhile_nonspace_replicate (p : Nat) :
    (List.replicate p ' ').dropWhile (fun x => !isPySpace x) =
      List.replicate p ' ' := by
  cases p with
  | zero => rfl
  | succ n =>
    rw [List.replicate_succ, List.dropWhile_cons_of_neg (by decide)]

/-- The uppercased hex text of a non-empty byte list starts with the high
nibble digit of its first byte. -/
theorem strUpper_bytesHexSep_cons (b : Nat) (rest : List Nat) :
    ∃ tl, strUpper (bytesHexSep (b :: rest)) = upHexDigit (b / 16) :: tl := by
  cases rest with
  | nil => exact ⟨[upHexDigit (b % 16)], rfl⟩
  | cons c r => exact ⟨_, rfl⟩

/-- Parsing the uppercase hex text of a byte list, with any trailing
space padding, recovers the bytes. -/
theorem extract_upperhex (enc : Char → Option (List Nat)) :
    ∀ (bs : List Nat), (∀ b ∈ bs, b < 256) → ∀ (pad : Nat),
      extractBytes enc (strUpper (bytesHexSep bs) ++ List.replicate pad ' ') =
        .ok bs
  | [], _, pad => by
    apply extractBytes_blank
    simpa [strUpper, bytesHexSep] using dropWhile_space_replicate pad
  | [b], h, pad => by
    have hb : b < 256 := h b (by simp)
    have hd1 := upHexDigit_facts (b / 16) (by omega)
    have hd2 := upHexDigit_facts (b % 16) (by omega)
    have htxt : strUpper (bytesHexSep [b]) ++ List.replicate pad ' '
        = upHexDigit (b / 16) :: upHexDigit (b % 16) :: List.replicate pad ' ' :=
      rfl
    rw [htxt]
    have hdrop :
        (upHexDigit (b / 16) :: upHexDigit (b % 16) ::
          List.replicate pad ' ').dropWhile isPySpace
        = upHexDigit (b / 16) :: upHexDigit (b % 16) :: List.replicate pad ' ' :=
      List.dropWhile_cons_of_neg (by simp [hd1.1])
    rw [extractBytes_hex enc hdrop hd1.2.1]
    have htok :
        (upHexDigit (b / 16) :: upHexDigit (b % 16) ::
          List.replicate pad ' ').takeWhile (fun x => !isPySpace x)
        = [upHexDigit (b / 16), upHexDigit (b % 16)] := by
      rw [List.takeWhile_cons_of_pos (by simp [hd1.1]),
        List.takeWhile_cons_of_pos (by simp [hd2.1]),
        takeWhile_nonspace_replicate]
    have hrest :
        ((upHexDigit (b / 16) :: upHexDigit (b % 16) ::
          List.replicate pad ' ').dropWhile (fun x => !isPySpace x)).dropWhile
            isPySpace = ([] : List Char) := by
      rw [List.dropWhile_cons_of_pos (by simp [hd1.1]),
        List.dropWhile_cons_of_pos (by simp [hd2.1]),
        dropWhile_nonspace_replicate, dropWhile_space_replicate]
    have hnil : extractBytes enc ([] : List Char) = .ok [] :=
      extractBytes_blank enc rfl
    have hfh : fromhexPairs [upHexDigit (b / 16), upHexDigit (b % 16)]
        = some [b] := by
      simp only [fromhexPairs, hd1.2.2, hd2.2.2]
      have : 16 * (b / 16) + b % 16 = b := by omega
      rw [this]
    simp only [htok, hrest, hnil, hfh, List.length_cons, List.length_nil]
    norm_num
    rw [hfh]
  | b :: b2 :: rest, h, pad => by
    have hb : b < 256 := h b (by simp)
    have hd1 := upHexDigit_facts (b / 16) (by omega)
    have hd2 := upHexDigit_facts (b % 16) (by omega)
    obtain ⟨tl, htl⟩ := strUpper_bytesHexSep_cons b2 rest
    have hb2 : b2 < 256 := h b2 (by simp)
    have hd3 := upHexDigit_facts (b2 / 16) (by omega)
    have htxt : strUpper (bytesHexSep (b :: b2 :: rest)) ++ List.replicate pad ' '
        = upHexDigit (b / 16) :: upHexDigit (b % 16) :: ' ' ::
          (strUpper (bytesHexSep (b2 :: rest)) ++ List.replicate pad ' ') := by
      show strUpper (hexPairLower b ++ ' ' :: bytesHexSep (b2 :: rest))
          ++ List.replicate pad ' ' = _
      simp only [strUpper, hexPairLower, List.map_append, List.map_cons,
        List.cons_append, List.nil_append]
      rfl
    rw [htxt]
    have hdrop :
        (upHexDigit (b / 16) :: upHexDigit (b % 16) :: ' ' ::
          (strUpper (bytesHexSep (b2 :: rest)) ++
            List.replicate pad ' ')).dropWhile isPySpace
        = upHexDigit (b / 16) :: upHexDigit (b % 16) :: ' ' ::
          (strUpper (bytesHexSep (b2 :: rest)) ++ List.replicate pad ' ') :=
      List.dropWhile_cons_of_neg (by simp [hd1.1])
    rw [extractBytes_hex enc hdrop hd1.2.1]
    have htok :
        (upHexDigit (b / 16) :: upHexDigit (b % 16) :: ' ' ::
          (strUpper (bytesHexSep (b2 :: rest)) ++
            List.replicate pad ' ')).takeWhile (fun x => !isPySpace x)
        = [upHexDigit (b / 16), upHexDigit (b % 16)] := by
      rw [List.takeWhile_cons_of_pos (by simp [hd1.1]),
        List.takeWhile_cons_of_pos (by simp [hd2.1]),
        List.takeWhile_cons_of_neg (by decide)]
    have hrest :
        ((upHexDigit (b / 16) :: upHexDigit (b % 16) :: ' ' ::
          (strUpper (bytesHexSep (b2 :: rest)) ++
            List.replicate pad ' ')).dropWhile (fun x => !isPySpace x)).dropWhile
              isPySpace
        = strUpper (bytesHexSep (b2 :: rest)) ++ List.replicate pad ' ' := by
      rw [List.dropWhile_cons_of_pos (by simp [hd1.1]),
        List.dropWhile_cons_of_pos (by simp [hd2.1]),
        List.dropWhile_cons_of_neg (by decide),
        List.dropWhile_cons_of_pos (by decide)]
      rw [htl]
      exact List.dropWhile_cons_of_neg (by simp [hd3.1])
    have hrec := extract_upperhex enc (b2 :: rest)
      (fun x hx => h x (List.mem_cons_of_mem b hx)) pad
    have hfh : fromhexPairs [upHexDigit (b / 16), upHexDigit (b % 16)]
        = some [b] := by
      simp only [fromhexPairs, hd1.2.2, hd2.2.2]
      have : 16 * (b / 16) + b % 16 = b := by omega
      rw [this]
    simp only [htok, hrest, hrec, hfh, List.length_cons, List.length_nil]
    norm_num
    rw [hfh]
    rfl
termination_by bs _ _ => bs.length
decreasing_by
  simp

/-! Claim C2: strict-pairs hex parsing. -/

/-- C2 counterexample: the input line F consists of one hex token with a
single (odd) dangling digit, yet convert_string_to_bytes accepts it as the
byte 0x0F with no diagnostic, instead of reporting a ParseError. -/
theorem c2_odd_digit_not_rejected :
    convert_string_to_bytes cp437Enc ['F'] = ([15], none) := by
  have hblank : extractBytes cp437Enc ([] : List Char) = .ok [] :=
    extractBytes_blank cp437Enc rfl
  have hx : extractBytes cp437Enc ['F'] = .ok [15] := by
    rw [@extractBytes_hex cp437Enc ['F'] 'F' [] (by decide) (by decide)]
    have h3 : ((['F'] : List Char).dropWhile (fun x => !isPySpace x)).dropWhile
        isPySpace = ([] : List Char) := by decide
    simp only [h3, hblank]
    rfl
  simp only [convert_string_to_bytes, hx]

/-- C2 amended: a line made of a single all-hex token of odd length is
not a ParseError; the parser prepends the character 0, parses the padded
token with bytes.fromhex, and returns its (length + 1) / 2 bytes with no
diagnostic. -/
theorem odd_hex_token_accepted (enc : Char → Option (List Nat))
    (tok : List Char) (hne : tok ≠ [])
    (hhex : ∀ c ∈ tok, (hexDigitVal c).isSome)
    (hodd : tok.length % 2 = 1) :
    ∃ bs, fromhexPairs ('0' :: tok) = some bs ∧
      convert_string_to_bytes enc tok = (bs, none) ∧
      bs.length = (tok.length + 1) / 2 := by
  obtain ⟨c, r, rfl⟩ : ∃ c r, tok = c :: r := by
    cases tok with
    | nil => simp at hne
    | cons c r => exact ⟨c, r, rfl⟩
  have hc := hhex c (by simp)
  have hdrop : (c :: r).dropWhile isPySpace = c :: r :=
    List.dropWhile_cons_of_neg (by simp [hexChar_not_space hc])
  have hnq := hexChar_not_quote hc
  have htok : (c :: r).takeWhile (fun x => !isPySpace x) = c :: r :=
    takeWhile_all _ _ (fun x hx => by simp [hexChar_not_space (hhex x hx)])
  have hdw : (c :: r).dropWhile (fun x => !isPySpace x) = [] :=
    dropWhile_all _ _ (fun x hx => by simp [hexChar_not_space (hhex x hx)])
  have hall : ∀ d ∈ '0' :: c :: r, (hexDigitVal d).isSome := by
    intro d hd
    rcases List.mem_cons.mp hd with rfl | hd2
    · decide
    · exact hhex d hd2
  have heven : ('0' :: c :: r).length % 2 = 0 := by
    simp only [List.length_cons] at hodd ⊢
    omega
  obtain ⟨bs, hbs, hlen⟩ := fromhex_total ('0' :: c :: r) hall heven
  have hblank : extractBytes enc ([] : List Char) = .ok [] :=
    extractBytes_blank enc rfl
  have hx : extractBytes enc (c :: r) = .ok bs := by
    rw [extractBytes_hex enc hdrop hnq]
    simp only [htok, hdw, List.dropWhile_nil, hblank, if_pos hodd, hbs,
      List.append_nil]
  refine ⟨bs, hbs, ?_, ?_⟩
  · simp only [convert_string_to_bytes, hx]
  · simp only [List.length_cons] at hlen ⊢
    omega

/-- C2 amended, witness: the three-digit token ABC is accepted as the two
bytes 0x0A 0xBC. -/
theorem odd_hex_token_accepted_witness :
    (['A', 'B', 'C'] ≠ ([] : List Char)) ∧
    (∀ c ∈ (['A', 'B', 'C'] : List Char), (hexDigitVal c).isSome) ∧
    (['A', 'B', 'C'] : List Char).length % 2 = 1 ∧
    (∃ bs, fromhexPairs ('0' :: ['A', 'B', 'C']) = some bs ∧
      convert_string_to_bytes cp437Enc ['A', 'B', 'C'] = (bs, none) ∧
      bs.length = ((['A', 'B', 'C'] : List Char).length + 1) / 2) :=
  ⟨by decide, by decide, by decide,
    odd_hex_token_accepted cp437Enc ['A', 'B', 'C'] (by decide) (by decide)
      (by decide)⟩

/-! Claim C7: parse and encoding failures are printed and dropped. -/

/-- C7: convert_string_to_bytes never propagates an exception: every result
is either the parsed bytes with no diagnostic, or the empty byte string
together with the printed diagnostic of the ParseError or encoding error;
moreover the spec scenario E4 line zzz yields exactly a printed ValueError
and no bytes. -/
theorem parser_never_raises (enc : Char → Option (List Nat)) (txt : List Char) :
    ((∃ bs, extractBytes enc txt = .ok bs ∧
        convert_string_to_bytes enc txt = (bs, none)) ∨
      (∃ e, extractBytes enc txt = .error e ∧
        convert_string_to_bytes enc txt = ([], some e))) ∧
    convert_string_to_bytes cp437Enc ['z', 'z', 'z'] = ([], some .valueError) := by
  constructor
  · cases hx : extractBytes enc txt with
    | ok bs => exact Or.inl ⟨bs, rfl, by simp only [convert_string_to_bytes, hx]⟩
    | error e => exact Or.inr ⟨e, rfl, by simp only [convert_string_to_bytes, hx]⟩
  · have hx : extractBytes cp437Enc ['z', 'z', 'z'] = .error .valueError := by
      rw [@extractBytes_hex cp437Enc ['z', 'z', 'z'] 'z' ['z', 'z']
        (by decide) (by decide)]
      rfl
    simp only [convert_string_to_bytes, hx]

/-! Claim C8: hex round trip between the parser and the formatter. -/

/-- C8: for bytes b, parsing the format8bytes text of b returns exactly b
with no diagnostic; and for a text of uppercase two-digit hex pairs
separated by single spaces (the text strUpper (bytesHexSep b) for its pair
values b), parsing returns exactly those bytes, and formatting the parsed
bytes reproduces the text up to the trailing space padding of ljust. -/
theorem hex_roundtrip (enc : Char → Option (List Nat)) (bs : List Nat)
    (h : ∀ b ∈ bs, b < 256) :
    convert_string_to_bytes enc (format8bytes bs) = (bs, none) ∧
    convert_string_to_bytes enc (strUpper (bytesHexSep bs)) = (bs, none) ∧
    format8bytes (convert_string_to_bytes enc (strUpper (bytesHexSep bs))).1 =
      ljust 24 (strUpper (bytesHexSep bs)) := by
  have h1 := extract_upperhex enc bs h (24 - (strUpper (bytesHexSep bs)).length)
  have h2 := extract_upperhex enc bs h 0
  rw [List.replicate_zero, List.append_nil] at h2
  refine ⟨?_, ?_, ?_⟩
  · show convert_string_to_bytes enc
      (strUpper (bytesHexSep bs) ++
        List.replicate (24 - (strUpper (bytesHexSep bs)).length) ' ') = (bs, none)
    simp only [convert_string_to_bytes, h1]
  · simp only [convert_string_to_bytes, h2]
  · simp only [convert_string_to_bytes, h2]
    rfl

/-- C8 witness: the bytes 0x48 0x69 0x0A round-trip through the formatter
and the parser. -/
theorem hex_roundtrip_witness :
    (∀ b ∈ ([0x48, 0x69, 0x0A] : List Nat), b < 256) ∧
    (convert_string_to_bytes cp437Enc (format8bytes [0x48, 0x69, 0x0A]) =
        ([0x48, 0x69, 0x0A], none) ∧
      convert_string_to_bytes cp437Enc (strUpper (bytesHexSep [0x48, 0x69, 0x0A])) =
        ([0x48, 0x69, 0x0A], none) ∧
      format8bytes (convert_string_to_bytes cp437Enc
          (strUpper (bytesHexSep [0x48, 0x69, 0x0A]))).1 =
        ljust 24 (strUpper (bytesHexSep [0x48, 0x69, 0x0A]))) :=
  ⟨by decide, hex_roundtrip cp437Enc [0x48, 0x69, 0x0A] (by decide)⟩

/-! Claim C10: an unterminated quote reaches to the end of the line. -/

/-- C10: when the stripped line starts with a quote that never closes, the
parser reports no error: the quoted region is the whole remainder of the
line, which is encoded and returned (diagnostic-free) provided the
encoding accepts it. -/
theorem unterminated_quote_to_eol (enc : Char → Option (List Nat))
    (txt : List Char) (q : Char) (r : List Char) (bs : List Nat)
    (hq : q = '\'' ∨ q = '"')
    (hdrop : txt.dropWhile isPySpace = q :: r)
    (hnoq : q ∉ r)
    (henc : encodeChars enc r = some bs) :
    convert_string_to_bytes enc txt = (bs, none) := by
  have htake : r.takeWhile (fun x => x ≠ q) = r :=
    takeWhile_all _ _ (fun x hx => by
      simp only [decide_eq_true_eq]
      intro hxq
      exact hnoq (hxq ▸ hx))
  have hdw : r.dropWhile (fun x => x ≠ q) = [] :=
    dropWhile_all _ _ (fun x hx => by
      simp only [decide_eq_true_eq]
      intro hxq
      exact hnoq (hxq ▸ hx))
  have hblank : extractBytes enc ([] : List Char) = .ok [] :=
    extractBytes_blank enc rfl
  have hx : extractBytes enc txt = .ok bs := by
    rw [extractBytes_quote enc hdrop hq]
    simp only [htake, henc, hdw, List.drop_nil, hblank, List.append_nil]
  simp only [convert_string_to_bytes, hx]

/-- C10 witness: the line 'hi (opening quote never closed) encodes the
remainder hi under CP437 and returns its two bytes. -/
theorem unterminated_quote_to_eol_witness :
    (('\'' : Char) = '\'' ∨ ('\'' : Char) = '"') ∧
    (['\'', 'h', 'i'] : List Char).dropWhile isPySpace = '\'' :: ['h', 'i'] ∧
    ('\'' : Char) ∉ (['h', 'i'] : List Char) ∧
    encodeChars cp437Enc ['h', 'i'] = some [104, 105] ∧
    convert_string_to_bytes cp437Enc ['\'', 'h', 'i'] = ([104, 105], none) :=
  ⟨Or.inl rfl, by decide, by decide, by decide,
    unterminated_quote_to_eol cp437Enc ['\'', 'h', 'i'] '\'' ['h', 'i']
      [104, 105] (Or.inl rfl) (by decide) (by decide) (by decide)⟩

/-! Claim C1: the E1 scenario output line. -/

/-- Evaluation of the E1 aggregator run: the chunk 0x48 0x69 0x0A arrives
at time 0, the queue times out at time 2 (past the 0.02 s window), and one
line is emitted. -/
theorem aggRunE1_eval :
    aggRun cfgE1 ⟨[], 0⟩ eventsE1 =
      [':' :: ' ' :: ("48 69 0A".toList ++ List.replicate 42 ' ' ++
        '|' :: ("Hi.".toList ++ List.replicate 13 ' ') ++ ['|', '\n'])] := by
  have hrec1 : aggReceive ⟨[], 0⟩ (QEvent.entry 0 [0x48, 0x69, 0x0A]) =
      (0, ⟨[0x48, 0x69, 0x0A], 0⟩) := by
    simp [aggReceive]
  have hemit1 : aggEmit cfgE1 0 ⟨[0x48, 0x69, 0x0A], 0⟩ =
      (⟨[0x48, 0x69, 0x0A], 0⟩, none) := by
    simp only [aggEmit]
    rw [if_neg (by norm_num [cfgE1, msg_timeout])]
  have hrec2 : aggReceive ⟨[0x48, 0x69, 0x0A], 0⟩ (QEvent.timeoutAt 2) =
      (2, ⟨[0x48, 0x69, 0x0A], 0⟩) := rfl
  have hemit2 : aggEmit cfgE1 2 ⟨[0x48, 0x69, 0x0A], 0⟩ =
      (⟨[], 2⟩, some (':' :: ' ' :: ("48 69 0A".toList ++ List.replicate 42 ' ' ++
        '|' :: ("Hi.".toList ++ List.replicate 13 ' ') ++ ['|', '\n']))) := by
    simp only [aggEmit]
    rw [if_pos (by norm_num [cfgE1, msg_timeout])]
    decide
  simp only [eventsE1, aggRun, aggStep, hrec1, hemit1, hrec2, hemit2]
  simp

/-- C1 counterexample: the emitted E1 line is not the claimed text (the
claimed text has no separator before the hex field and 43 spaces before
the sidebar; the code emits a leading colon and space even with an empty
direction tag, and 42 spaces). -/
theorem e1_line_not_as_claimed :
    aggRun cfgE1 ⟨[], 0⟩ eventsE1 ≠
      [("48 69 0A".toList ++ List.replicate 43 ' ' ++
        '|' :: ("Hi.".toList ++ List.replicate 13 ' ') ++ ['|', '\n'])] := by
  intro hcontra
  have h := aggRunE1_eval
  rw [hcontra] at h
  revert h
  decide

/-- C1 amended: in the E1 scenario the aggregator emits exactly one line,
the text colon space 48 69 0A, forty-two spaces, the sidebar bar Hi. with
thirteen trailing spaces and a closing bar, then a newline; the timestamp
prefix is off because neither the timestamp flag nor MITM is set. -/
theorem e1_line_amended :
    aggRun cfgE1 ⟨[], 0⟩ eventsE1 =
      [':' :: ' ' :: ("48 69 0A".toList ++ List.replicate 42 ' ' ++
        '|' :: ("Hi.".toList ++ List.replicate 13 ' ') ++ ['|', '\n'])] ∧
    cfgE1.printTs = false :=
  ⟨aggRunE1_eval, rfl⟩

/-! Claim C3: shutdown flush and loop exit. -/

/-- C3 counterexample: with the shutdown latch set, a drained channel and
one pending byte, the aggregator does flush a line on the queue timeout,
but the loop guard (a bare while True) still continues afterwards: the
loop never exits. -/
theorem agg_flush_but_no_exit_example :
    ((aggStep cfgE1 ⟨[0x41], 0⟩ (QEvent.timeoutAt 1)).2).isSome = true ∧
    serial_output_loop_continues true
      (aggStep cfgE1 ⟨[0x41], 0⟩ (QEvent.timeoutAt 1)).1 = true := by
  constructor
  · simp only [aggStep, aggReceive, aggEmit]
    rw [if_pos (by norm_num [cfgE1, msg_timeout])]
    rfl
  · rfl

/-- C3 amended: once the channel is drained, a non-empty pending buffer
older than msg_timeout is flushed by the queue-timeout path as a line of
its first min(16, pending) bytes; but the loop guard is the constant true
regardless of the shutdown latch, so the aggregator never exits its loop
(the thread is a daemon abandoned at process exit). -/
theorem agg_flush_on_timeout (cfg : AggConfig) (s : AggState) (t : ℚ)
    (h1 : 0 < s.data.length) (h2 : t - s.start > cfg.msgTimeout) :
    (aggStep cfg s (QEvent.timeoutAt t)).2 =
      some (serial_output_line cfg s.start
        (convert_16bytes_to_string cfg.dec (s.data.take 16))) ∧
    (aggStep cfg s (QEvent.timeoutAt t)).1.data = s.data.drop 16 ∧
    (∀ b, serial_output_loop_continues b
      (aggStep cfg s (QEvent.timeoutAt t)).1 = true) := by
  have hc : 16 ≤ s.data.length ∨
      (0 < s.data.length ∧ t - s.start > cfg.msgTimeout) := Or.inr ⟨h1, h2⟩
  simp only [aggStep, aggReceive, aggEmit]
  rw [if_pos hc]
  exact ⟨rfl, rfl, fun b => rfl⟩

/-- C3 amended, witness: one pending byte at time 0, timeout observed at
time 1 with the 0.02 s window of 9600 baud. -/
theorem agg_flush_on_timeout_witness :
    (0 < (AggState.mk [0x41] 0).data.length) ∧
    ((1 : ℚ) - (AggState.mk [0x41] 0).start > cfgE1.msgTimeout) ∧
    ((aggStep cfgE1 (AggState.mk [0x41] 0) (QEvent.timeoutAt 1)).2 =
      some (serial_output_line cfgE1 (AggState.mk [0x41] 0).start
        (convert_16bytes_to_string cfgE1.dec
          ((AggState.mk [0x41] 0).data.take 16))) ∧
    (aggStep cfgE1 (AggState.mk [0x41] 0) (QEvent.timeoutAt 1)).1.data =
      (AggState.mk [0x41] 0).data.drop 16 ∧
    (∀ b, serial_output_loop_continues b
      (aggStep cfgE1 (AggState.mk [0x41] 0) (QEvent.timeoutAt 1)).1 = true)) :=
  ⟨by decide, by norm_num [cfgE1, msg_timeout],
    agg_flush_on_timeout cfgE1 (AggState.mk [0x41] 0) 1 (by decide)
      (by norm_num [cfgE1, msg_timeout])⟩

/-! Claim C6: emitted lines hold 1 to 16 bytes, exactly the buffer head. -/

/-- C6: a line is emitted only under the width-or-age condition; it is
formed from exactly the first min(16, pending) bytes, which number between
1 and 16; those bytes leave the buffer, and line bytes plus remainder
reassemble the buffer. -/
theorem agg_emit_spec (cfg : AggConfig) (curr : ℚ) (s : AggState)
    (line : List Char) (h : (aggEmit cfg curr s).2 = some line) :
    (16 ≤ s.data.length ∨ (0 < s.data.length ∧ curr - s.start > cfg.msgTimeout)) ∧
    line = serial_output_line cfg s.start
      (convert_16bytes_to_string cfg.dec (s.data.take 16)) ∧
    (s.data.take 16).length = min 16 s.data.length ∧
    1 ≤ (s.data.take 16).length ∧ (s.data.take 16).length ≤ 16 ∧
    (aggEmit cfg curr s).1.data = s.data.drop 16 ∧
    s.data.take 16 ++ s.data.drop 16 = s.data := by
  by_cases hc : 16 ≤ s.data.length ∨
      (0 < s.data.length ∧ curr - s.start > cfg.msgTimeout)
  · have hpos : 0 < s.data.length := by
      rcases hc with h16 | ⟨hp, _⟩
      · omega
      · exact hp
    simp only [aggEmit, if_pos hc] at h
    have hline : line = serial_output_line cfg s.start
        (convert_16bytes_to_string cfg.dec (s.data.take 16)) :=
      (Option.some.inj h).symm
    have hlen : (s.data.take 16).length = min 16 s.data.length :=
      List.length_take 16 s.data
    refine ⟨hc, hline, hlen, by rw [hlen]; omega, by rw [hlen]; omega,
      by simp only [aggEmit, if_pos hc], List.take_append_drop 16 s.data⟩
  · simp only [aggEmit, if_neg hc] at h
    simp at h

/-- C6 witness: three pending bytes older than the window at time 2 emit
a three-byte line and leave an empty buffer. -/
theorem agg_emit_spec_witness :
    ((aggEmit cfgE1 2 (AggState.mk [0x48, 0x69, 0x0A] 0)).2 =
      some (serial_output_line cfgE1 0
        (convert_16bytes_to_string cfgE1.dec
          (([0x48, 0x69, 0x0A] : List Nat).take 16)))) ∧
    ((16 ≤ (AggState.mk [0x48, 0x69, 0x0A] 0).data.length ∨
      (0 < (AggState.mk [0x48, 0x69, 0x0A] 0).data.length ∧
        (2 : ℚ) - (AggState.mk [0x48, 0x69, 0x0A] 0).start > cfgE1.msgTimeout)) ∧
    serial_output_line cfgE1 0
        (convert_16bytes_to_string cfgE1.dec
          (([0x48, 0x69, 0x0A] : List Nat).take 16)) =
      serial_output_line cfgE1 (AggState.mk [0x48, 0x69, 0x0A] 0).start
        (convert_16bytes_to_string cfgE1.dec
          ((AggState.mk [0x48, 0x69, 0x0A] 0).data.take 16)) ∧
    ((AggState.mk [0x48, 0x69, 0x0A] 0).data.take 16).length =
      min 16 (AggState.mk [0x48, 0x69, 0x0A] 0).data.length ∧
    1 ≤ ((AggState.mk [0x48, 0x69, 0x0A] 0).data.take 16).length ∧
    ((AggState.mk [0x48, 0x69, 0x0A] 0).data.take 16).length ≤ 16 ∧
    (aggEmit cfgE1 2 (AggState.mk [0x48, 0x69, 0x0A] 0)).1.data =
      (AggState.mk [0x48, 0x69, 0x0A] 0).data.drop 16 ∧
    (AggState.mk [0x48, 0x69, 0x0A] 0).data.take 16 ++
        (AggState.mk [0x48, 0x69, 0x0A] 0).data.drop 16 =
      (AggState.mk [0x48, 0x69, 0x0A] 0).data) :=
  ⟨by simp only [aggEmit]; rw [if_pos (by norm_num [cfgE1, msg_timeout])],
    agg_emit_spec cfgE1 2 (AggState.mk [0x48, 0x69, 0x0A] 0) _
      (by simp only [aggEmit]; rw [if_pos (by norm_num [cfgE1, msg_timeout])])⟩

/-! Claim C5: forward-before-publish ordering in MITM mode. -/

/-- C5: in the forwarding read loop, every non-empty chunk contributes its
peer write immediately before its queue publish in the global action
sequence; writes of a chunk therefore return before that chunk is
enqueued. -/
theorem forward_before_publish (pre post : List (ℚ × List Nat)) (t : ℚ)
    (bs : List Nat) (h : bs ≠ []) :
    serial_input_events true (pre ++ (t, bs) :: post) =
      serial_input_events true pre ++
        SerialEvent.peerWrite bs :: SerialEvent.publish t bs ::
          serial_input_events true post := by
  have hcyc : serial_input_cycle true t bs =
      [SerialEvent.peerWrite bs, SerialEvent.publish t bs] := by
    cases bs with
    | nil => exact absurd rfl h
    | cons b bs2 => rfl
  induction pre with
  | nil => simp [serial_input_events, hcyc]
  | cons p pre ih =>
    obtain ⟨tp, bp⟩ := p
    simp only [List.cons_append, serial_input_events, List.append_eq, ih,
      List.append_assoc]

/-- C5 witness: a single one-byte read in forwarding mode produces the
peer write followed by the publish. -/
theorem forward_before_publish_witness :
    (([0x41] : List Nat) ≠ []) ∧
    serial_input_events true ([] ++ ((0 : ℚ), ([0x41] : List Nat)) :: []) =
      serial_input_events true [] ++
        SerialEvent.peerWrite [0x41] :: SerialEvent.publish 0 [0x41] ::
          serial_input_events true [] :=
  ⟨by decide, forward_before_publish [] [] 0 [0x41] (by decide)⟩

/-! Claim C9: which lines the dispatcher treats as quit. -/

/-- C9 counterexample: the line space q has q as its first non-space
character, yet the dispatcher does not quit: it falls through to the DCE
send branch, because the tests inspect the raw first character. -/
theorem dispatch_leading_space_not_quit :
    local_dispatch [' ', 'q'] = LocalAction.dceSend [' ', 'q'] ∧
    local_dispatch [' ', 'q'] ≠ LocalAction.quit := by
  constructor
  · decide
  · decide

/-- C9 amended: the dispatcher recognizes verbs by the case-insensitive
raw first character of the line: an empty line (EOF) or a first character
uppercasing to Q quits, while a line starting with whitespace is never a
verb and is routed to the DCE send branch. -/
theorem dispatch_quit_by_first_char :
    local_dispatch [] = LocalAction.quit ∧
    (∀ c r, pyToUpper c = 'Q' → local_dispatch (c :: r) = LocalAction.quit) ∧
    (∀ r, local_dispatch (' ' :: r) = LocalAction.dceSend (' ' :: r)) := by
  refine ⟨rfl, ?_, ?_⟩
  · intro c r hc
    simp only [local_dispatch, if_pos hc]
  · intro r
    simp only [local_dispatch]
    rw [if_neg (by decide), if_neg (by decide), if_neg (by decide),
      if_neg (by decide)]

/-- C9 amended, witness: the line quit (with its newline) quits; the
uppercase of its first character q is Q. -/
theorem dispatch_quit_by_first_char_witness :
    pyToUpper 'q' = 'Q' ∧
    local_dispatch ('q' :: ['u', 'i', 't', '\n']) = LocalAction.quit :=
  ⟨by decide,
    dispatch_quit_by_first_char.2.1 'q' ['u', 'i', 't', '\n'] (by decide)⟩

/-! Claim C4: --no-forwarding without -m. -/

/-- C4: the command line PORT --nf (no-forwarding without a MITM port)
does not trip the startup check: verify_args_skip_start returns false, so
main proceeds to start the workers, and the later forwarding decision
returns ok false without raising; the guard only fires for a truthy
forward flag, which the CLI can never produce. -/
theorem nf_without_mitm_not_skipped :
    verify_args_skip_start nfArgs = false ∧
    forward_to_mitm nfArgs.mitm nfArgs.forward = .ok false ∧
    (∀ a : Args, a.forward = none ∨ a.forward = some false →
      (optBoolTruthy a.forward && !optStrTruthy a.mitm) = false) := by
  refine ⟨rfl, rfl, ?_⟩
  intro a ha
  rcases ha with ha | ha <;> simp [optBoolTruthy, ha]

end Hexterm
